import Mathlib

/-
  Verification of the SolariBoard split-flap display component
  (src/solari.js) against its natural-language specification.

  Shallow embedding notes:
  * JavaScript numbers are modelled as rationals (ℚ); all arithmetic the
    claims touch is exact at these magnitudes, so ℚ matches the float
    semantics on every relevant input.
  * The WebGL device is modelled by recording whether a buffer upload
    (gl.bufferSubData) is issued by update: SolariBoard.update returns the
    new state together with that Boolean.
  * Math.random() * 0.1 jitter is modelled by an explicit jitter function
    (row and column index to rational); quantifying over all such functions
    covers every random sequence.
  * String.prototype.toUpperCase is modelled character-wise by
    Char.toUpper (the inputs of interest are basic latin).
-/

namespace Solari

/-- charWidth constant from _buildBuffers. -/
def charWidth : ℚ := 1

/-- charHeight constant from _buildBuffers. -/
def charHeight : ℚ := 1

/-- spacing constant from _buildBuffers. -/
def spacing : ℚ := 1 / 10

/-- verticesPerChar: 16 vertices per cell (4 quads of 4 vertices). -/
def verticesPerChar : ℕ := 16

/-- addFaceIndices(arr, a, b, c, d): arr.push(c, d, a, c, a, b). -/
def addFaceIndices (arr : List ℕ) (a b c d : ℕ) : List ℕ :=
  arr ++ [c, d, a, c, a, b]

/-- setupCharHalf from _buildBuffers: pushes 4 vertices of
(x, y, z, u, v) each onto the vertex buffer and 6 indices onto the index
buffer.  Returns the pushed (vertexFloats, indices). -/
def setupCharHalf (x y u v : ℚ) (i : ℕ) (animated flipped : Bool) :
    List ℚ × List ℕ :=
  let anim : ℚ := if animated then 1 else 0
  let z : ℚ := 0
  let topUV : ℚ := if flipped then -(1/2) else 1/2
  ([x, y, z, u, v,
    x + charWidth, y, z, u + 1, v,
    x + charWidth, y + charHeight, z + anim, u + 1, v + topUV,
    x, y + charHeight, z + anim, u, v + topUV],
   if flipped then addFaceIndices [] (i+3) (i+2) (i+1) (i+0)
   else addFaceIndices [] (i+0) (i+1) (i+2) (i+3))

/-- One iteration of the inner column loop of _buildBuffers: the four
setupCharHalf calls for the cell whose first vertex has index `index`. -/
def buildCell (x y : ℚ) (index : ℕ) : List ℚ × List ℕ :=
  let h1 := setupCharHalf x (y - 1) 0 0 index false false
  let h2 := setupCharHalf x y 1 (1/2) (index + 4) false false
  let h3 := setupCharHalf x y 0 (1/2) (index + 8) true false
  let h4 := setupCharHalf x y 1 (1/2) (index + 12) true true
  (h1.1 ++ h2.1 ++ h3.1 ++ h4.1, h1.2 ++ h2.2 ++ h3.2 ++ h4.2)

/-- The inner column loop of _buildBuffers: n remaining cells starting at
abscissa x, vertex index `index`; x advances by spacing + charWidth and
index by verticesPerChar per cell. -/
def buildCols : ℕ → ℚ → ℚ → ℕ → List ℚ × List ℕ
  | 0, _, _, _ => ([], [])
  | n+1, x, y, index =>
    let c := buildCell x y index
    let rest := buildCols n (x + (spacing + charWidth)) y (index + verticesPerChar)
    (c.1 ++ rest.1, c.2 ++ rest.2)

/-- The outer row loop of _buildBuffers: m remaining rows; y decreases by
spacing + 2*charHeight per row; the vertex index advances by
verticesPerChar * cols per row (the value the threaded counter reaches). -/
def buildRows (cols : ℕ) : ℕ → ℚ → ℚ → ℕ → List ℚ × List ℕ
  | 0, _, _, _ => ([], [])
  | m+1, offsetX, y, index =>
    let r := buildCols cols offsetX y index
    let rest := buildRows cols m offsetX (y - (spacing + 2 * charHeight))
      (index + verticesPerChar * cols)
    (r.1 ++ rest.1, r.2 ++ rest.2)

/-- The geometry part of _buildBuffers: the interleaved vertex buffer
(flat floats, 5 per vertex) and the index buffer. -/
def buildBuffers (rows cols : ℕ) : List ℚ × List ℕ :=
  let offsetX : ℚ := (-(cols : ℚ) / 2) * (charWidth + spacing)
  let y0 : ℚ := ((rows : ℚ) / 2 - 1/2) * (2 * charHeight + spacing)
  buildRows cols rows offsetX y0 0

/-- Read slot q of the character buffer (JS buffer[q]); all uses in the
development are in range. -/
def bufGet (buf : List ℚ) (q : ℕ) : ℚ := buf.getD q 0

/-- The ternary in fillCharBuffer choosing the new from value:
(Math.floor(to) < Math.floor(from)) ? from - chars.length : from. -/
def wrapFrom (glyphCount tov fr : ℚ) : ℚ :=
  if ⌊tov⌋ < ⌊fr⌋ then fr - glyphCount else fr

/-- One iteration (vertex i) of the loop in fillCharBuffer:
from = buffer[bufIndex + 2*i + 1];
buffer[bufIndex + 2*i] = wrap of from; buffer[bufIndex + 2*i + 1] = to. -/
def fillStep (glyphCount tov : ℚ) (bufIndex i : ℕ) (buf : List ℚ) : List ℚ :=
  let fr := bufGet buf (bufIndex + 2*i + 1)
  (buf.set (bufIndex + 2*i) (wrapFrom glyphCount tov fr)).set (bufIndex + 2*i + 1) tov

/-- The fillCharBuffer loop run for vertices 0, 1, ..., n-1 in order. -/
def fillN (glyphCount tov : ℚ) (bufIndex : ℕ) : ℕ → List ℚ → List ℚ
  | 0, buf => buf
  | n+1, buf => fillStep glyphCount tov bufIndex n (fillN glyphCount tov bufIndex n buf)

/-- fillCharBuffer(to) from setMessage: repeats the (from, to) update for
each of the verticesPerChar vertices of the cell starting at bufIndex. -/
def fillCharBuffer (glyphCount tov : ℚ) (bufIndex : ℕ) (buf : List ℚ) : List ℚ :=
  fillN glyphCount tov bufIndex verticesPerChar buf

/-- JavaScript Array.prototype.indexOf on the glyph list: first index of
c, or -1 when absent. -/
def jsIndexOf : List Char → Char → ℤ
  | [], _ => -1
  | x :: xs, c =>
    if x = c then 0
    else
      let r := jsIndexOf xs c
      if r = -1 then -1 else r + 1

/-- msg[j].toUpperCase() modelled character-wise. -/
def jsToUpperCase (s : List Char) : List Char := s.map Char.toUpper

/-- The body of the column loop of setMessage computing the target glyph
index for column i of the (already uppercased) row:
char = chars.length - 1; if (i < msgRow.length) { k = chars.indexOf(msgRow[i]);
if (k != -1) char = k; }. -/
def targetChar (chars : List Char) (msgRow : List Char) (i : ℕ) : ℤ :=
  let blank : ℤ := (chars.length : ℤ) - 1
  if i < msgRow.length then
    let k := jsIndexOf chars (msgRow.getD i default)
    if k = -1 then blank else k
  else blank

/-- The inner column loop of setMessage: rem remaining columns, current
column i, current bufIndex; each iteration runs fillCharBuffer with
to = char + jitter and advances bufIndex by 2 * verticesPerChar. -/
def msgColsAux (chars : List Char) (msgRow : List Char) (jitRow : ℕ → ℚ) :
    ℕ → ℕ → ℕ → List ℚ → List ℚ
  | 0, _, _, buf => buf
  | rem+1, i, bufIndex, buf =>
    let tov : ℚ := (targetChar chars msgRow i : ℚ) + jitRow i
    msgColsAux chars msgRow jitRow rem (i+1) (bufIndex + 2 * verticesPerChar)
      (fillCharBuffer (chars.length : ℚ) tov bufIndex buf)

/-- The outer row loop of setMessage: rem remaining rows, current row j;
msgRow = (msg[j] || "").toUpperCase(). -/
def msgRowsAux (chars : List Char) (cols : ℕ) (msg : List (List Char))
    (jit : ℕ → ℕ → ℚ) : ℕ → ℕ → ℕ → List ℚ → List ℚ
  | 0, _, _, buf => buf
  | rem+1, j, bufIndex, buf =>
    let msgRow := jsToUpperCase (msg.getD j [])
    msgRowsAux chars cols msg jit rem (j+1) (bufIndex + 2 * verticesPerChar * cols)
      (msgColsAux chars msgRow (jit j) cols 0 bufIndex buf)

/-- The board state: the fields of the SolariBoard object the claims
concern (device handles are modelled away; numIndices kept). -/
structure SolariBoard where
  chars : List Char
  rows : ℕ
  cols : ℕ
  speed : ℚ
  timing : ℚ
  numIndices : ℕ
  charBuffer : List ℚ
  charBufferDirty : Bool

/-- The SolariBoard constructor: options.speed || 0.005, timing = 0, the
char buffer filled with the blank glyph chars.length - 1 and the dirty
flag cleared (both done inside _buildBuffers). -/
def mkBoard (chars : List Char) (rows cols : ℕ) (speedOpt : Option ℚ) : SolariBoard :=
  let speed : ℚ :=
    match speedOpt with
    | none => 5 / 1000
    | some s => if s = 0 then 5 / 1000 else s
  { chars := chars
    rows := rows
    cols := cols
    speed := speed
    timing := 0
    numIndices := (buildBuffers rows cols).2.length
    charBuffer := List.replicate (2 * verticesPerChar * cols * rows) ((chars.length : ℚ) - 1)
    charBufferDirty := false }

/-- SolariBoard.prototype.setMessage: rewrites the character buffer row by
row and sets the dirty flag. -/
def SolariBoard.setMessage (b : SolariBoard) (msg : List (List Char))
    (jit : ℕ → ℕ → ℚ) : SolariBoard :=
  { b with
    charBuffer := msgRowsAux b.chars b.cols msg jit b.rows 0 0 b.charBuffer
    charBufferDirty := true }

/-- SolariBoard.prototype.update(time, gl): advances timing only while it
is below chars.length, then uploads the character buffer and clears the
dirty flag when it is set.  Second component: whether the device upload
(gl.bufferSubData) was issued. -/
def SolariBoard.update (b : SolariBoard) (time : ℚ) : SolariBoard × Bool :=
  let b1 :=
    if b.timing < (b.chars.length : ℚ) then
      { b with timing := b.timing + time * b.speed }
    else b
  if b1.charBufferDirty then ({ b1 with charBufferDirty := false }, true)
  else (b1, false)

/-- A sequence of update calls (dropping the upload Booleans). -/
def runUpdates (b : SolariBoard) (ts : List ℚ) : SolariBoard :=
  ts.foldl (fun s t => (s.update t).1) b

/-- A sequence of setMessage calls, each with its jitter function. -/
def runMessages (b : SolariBoard)
    (calls : List (List (List Char) × (ℕ → ℕ → ℚ))) : SolariBoard :=
  calls.foldl (fun s c => s.setMessage c.1 c.2) b

/-- The to value written by setMessage for cell (j, i):
char + Math.random() * 0.1 with the jitter made explicit. -/
def toValue (chars : List Char) (msg : List (List Char)) (jit : ℕ → ℕ → ℚ)
    (j i : ℕ) : ℚ :=
  (targetChar chars (jsToUpperCase (msg.getD j [])) i : ℚ) + jit j i

end Solari

namespace Solari

/-! ### Basic buffer access lemmas -/

theorem bufGet_set_self {l : List ℚ} {q : ℕ} {a : ℚ} (h : q < l.length) :
    bufGet (l.set q a) q = a := by
  simp [bufGet, List.getD_eq_getElem?_getD, List.getElem?_set_self h]

theorem bufGet_set_ne {l : List ℚ} {q r : ℕ} {a : ℚ} (h : q ≠ r) :
    bufGet (l.set q a) r = bufGet l r := by
  simp [bufGet, List.getD_eq_getElem?_getD, List.getElem?_set_ne h]

theorem bufGet_replicate {n q : ℕ} {a : ℚ} (h : q < n) :
    bufGet (List.replicate n a) q = a := by
  simp [bufGet, List.getD_eq_getElem?_getD, List.getElem?_replicate, h]

/-! ### fillCharBuffer loop -/

theorem fillStep_length (g tov : ℚ) (bufIndex i : ℕ) (buf : List ℚ) :
    (fillStep g tov bufIndex i buf).length = buf.length := by
  simp [fillStep]

theorem fillStep_untouched (g tov : ℚ) (bufIndex i : ℕ) (buf : List ℚ) {q : ℕ}
    (h1 : q ≠ bufIndex + 2*i) (h2 : q ≠ bufIndex + 2*i + 1) :
    bufGet (fillStep g tov bufIndex i buf) q = bufGet buf q := by
  simp only [fillStep]
  rw [bufGet_set_ne (Ne.symm h2), bufGet_set_ne (Ne.symm h1)]

theorem fillN_length (g tov : ℚ) (bufIndex n : ℕ) (buf : List ℚ) :
    (fillN g tov bufIndex n buf).length = buf.length := by
  induction n with
  | zero => rfl
  | succ n ih => simp [fillN, fillStep_length, ih]

theorem fillN_untouched (g tov : ℚ) (bufIndex n : ℕ) (buf : List ℚ) {q : ℕ}
    (h : q < bufIndex ∨ bufIndex + 2*n ≤ q) :
    bufGet (fillN g tov bufIndex n buf) q = bufGet buf q := by
  induction n with
  | zero => rfl
  | succ n ih =>
    rw [fillN, fillStep_untouched g tov bufIndex n _ (by omega) (by omega)]
    exact ih (by omega)

theorem fillN_to (g tov : ℚ) (bufIndex : ℕ) (buf : List ℚ) {n s : ℕ}
    (hs : s < n) (hlen : bufIndex + 2*s + 1 < buf.length) :
    bufGet (fillN g tov bufIndex n buf) (bufIndex + 2*s + 1) = tov := by
  induction n with
  | zero => omega
  | succ n ih =>
    rw [fillN]
    rcases Nat.lt_or_ge s n with hsn | hsn
    · rw [fillStep_untouched g tov bufIndex n _ (by omega) (by omega)]
      exact ih hsn
    · have hsn' : s = n := by omega
      subst hsn'
      simp only [fillStep]
      exact bufGet_set_self (by simp [fillN_length]; omega)

theorem fillN_from (g tov : ℚ) (bufIndex : ℕ) (buf : List ℚ) {n s : ℕ}
    (hs : s < n) (hlen : bufIndex + 2*s + 1 < buf.length) :
    bufGet (fillN g tov bufIndex n buf) (bufIndex + 2*s) =
      wrapFrom g tov (bufGet buf (bufIndex + 2*s + 1)) := by
  induction n with
  | zero => omega
  | succ n ih =>
    rw [fillN]
    rcases Nat.lt_or_ge s n with hsn | hsn
    · rw [fillStep_untouched g tov bufIndex n _ (by omega) (by omega)]
      exact ih hsn
    · have hsn' : s = n := by omega
      subst hsn'
      simp only [fillStep]
      rw [bufGet_set_ne (by omega), bufGet_set_self (by simp [fillN_length]; omega),
        fillN_untouched g tov bufIndex s buf (by omega)]

theorem fillCharBuffer_length (g tov : ℚ) (bufIndex : ℕ) (buf : List ℚ) :
    (fillCharBuffer g tov bufIndex buf).length = buf.length :=
  fillN_length ..

theorem fillCharBuffer_untouched (g tov : ℚ) (bufIndex : ℕ) (buf : List ℚ) {q : ℕ}
    (h : q < bufIndex ∨ bufIndex + 32 ≤ q) :
    bufGet (fillCharBuffer g tov bufIndex buf) q = bufGet buf q :=
  fillN_untouched g tov bufIndex 16 buf (by omega)

theorem fillCharBuffer_to (g tov : ℚ) (bufIndex : ℕ) (buf : List ℚ) {s : ℕ}
    (hs : s < 16) (hlen : bufIndex + 2*s + 1 < buf.length) :
    bufGet (fillCharBuffer g tov bufIndex buf) (bufIndex + 2*s + 1) = tov :=
  fillN_to g tov bufIndex buf hs hlen

theorem fillCharBuffer_from (g tov : ℚ) (bufIndex : ℕ) (buf : List ℚ) {s : ℕ}
    (hs : s < 16) (hlen : bufIndex + 2*s + 1 < buf.length) :
    bufGet (fillCharBuffer g tov bufIndex buf) (bufIndex + 2*s) =
      wrapFrom g tov (bufGet buf (bufIndex + 2*s + 1)) :=
  fillN_from g tov bufIndex buf hs hlen

end Solari

namespace Solari

theorem two_mul_verticesPerChar : 2 * verticesPerChar = 32 := rfl

/-! ### setMessage column loop -/

theorem msgColsAux_length (ch row : List Char) (jr : ℕ → ℚ) (rem : ℕ) :
    ∀ (i bufIndex : ℕ) (buf : List ℚ),
      (msgColsAux ch row jr rem i bufIndex buf).length = buf.length := by
  induction rem with
  | zero => intro i bufIndex buf; rfl
  | succ rem ih =>
    intro i bufIndex buf
    rw [msgColsAux, ih, fillCharBuffer_length]

theorem msgColsAux_untouched (ch row : List Char) (jr : ℕ → ℚ) (rem : ℕ) :
    ∀ (i bufIndex : ℕ) (buf : List ℚ) {q : ℕ},
      (q < bufIndex ∨ bufIndex + 32 * rem ≤ q) →
      bufGet (msgColsAux ch row jr rem i bufIndex buf) q = bufGet buf q := by
  induction rem with
  | zero => intro i bufIndex buf q _; rfl
  | succ rem ih =>
    intro i bufIndex buf q hq
    rw [msgColsAux, two_mul_verticesPerChar, ih _ _ _ (by omega),
      fillCharBuffer_untouched _ _ _ _ (by omega)]

theorem msgColsAux_to (ch row : List Char) (jr : ℕ → ℚ) (rem : ℕ) :
    ∀ (i bufIndex : ℕ) (buf : List ℚ) {k s : ℕ},
      k < rem → s < 16 → bufIndex + 32 * k + 2*s + 1 < buf.length →
      bufGet (msgColsAux ch row jr rem i bufIndex buf) (bufIndex + 32 * k + 2*s + 1) =
        (targetChar ch row (i + k) : ℚ) + jr (i + k) := by
  induction rem with
  | zero => intro i bufIndex buf k s hk _ _; omega
  | succ rem ih =>
    intro i bufIndex buf k s hk hs hlen
    rw [msgColsAux, two_mul_verticesPerChar]
    rcases Nat.eq_zero_or_pos k with hk0 | hkpos
    · subst hk0
      have h0 : bufIndex + 32 * 0 + 2*s + 1 = bufIndex + 2*s + 1 := by ring
      rw [h0, msgColsAux_untouched _ _ _ _ _ _ _ (by omega),
        fillCharBuffer_to _ _ _ _ hs (by omega)]
      simp
    · obtain ⟨m, rfl⟩ : ∃ m, k = m + 1 := ⟨k - 1, by omega⟩
      have harith : bufIndex + 32 * (m + 1) + 2*s + 1 = (bufIndex + 32) + 32 * m + 2*s + 1 := by
        ring
      rw [harith, ih _ _ _ (by omega) hs (by rw [fillCharBuffer_length]; omega)]
      have : i + 1 + m = i + (m + 1) := by omega
      rw [this]

theorem msgColsAux_from (ch row : List Char) (jr : ℕ → ℚ) (rem : ℕ) :
    ∀ (i bufIndex : ℕ) (buf : List ℚ) {k s : ℕ},
      k < rem → s < 16 → bufIndex + 32 * k + 2*s + 1 < buf.length →
      bufGet (msgColsAux ch row jr rem i bufIndex buf) (bufIndex + 32 * k + 2*s) =
        wrapFrom (ch.length : ℚ) ((targetChar ch row (i + k) : ℚ) + jr (i + k))
          (bufGet buf (bufIndex + 32 * k + 2*s + 1)) := by
  induction rem with
  | zero => intro i bufIndex buf k s hk _ _; omega
  | succ rem ih =>
    intro i bufIndex buf k s hk hs hlen
    rw [msgColsAux, two_mul_verticesPerChar]
    rcases Nat.eq_zero_or_pos k with hk0 | hkpos
    · subst hk0
      have h0 : bufIndex + 32 * 0 + 2*s = bufIndex + 2*s := by ring
      have h1 : bufIndex + 32 * 0 + 2*s + 1 = bufIndex + 2*s + 1 := by ring
      rw [h1, h0, msgColsAux_untouched _ _ _ _ _ _ _ (by omega),
        fillCharBuffer_from _ _ _ _ hs (by omega)]
      simp
    · obtain ⟨m, rfl⟩ : ∃ m, k = m + 1 := ⟨k - 1, by omega⟩
      have harith : bufIndex + 32 * (m + 1) + 2*s = (bufIndex + 32) + 32 * m + 2*s := by
        ring
      rw [harith, ih _ _ _ (by omega) hs (by rw [fillCharBuffer_length]; omega)]
      have h2 : i + 1 + m = i + (m + 1) := by omega
      rw [h2, fillCharBuffer_untouched _ _ _ _ (by omega)]

end Solari

namespace Solari

/-! ### setMessage row loop -/

theorem msgRowsAux_length (ch : List Char) (cols : ℕ) (msg : List (List Char))
    (jit : ℕ → ℕ → ℚ) (rem : ℕ) :
    ∀ (j bufIndex : ℕ) (buf : List ℚ),
      (msgRowsAux ch cols msg jit rem j bufIndex buf).length = buf.length := by
  induction rem with
  | zero => intro j bufIndex buf; rfl
  | succ rem ih =>
    intro j bufIndex buf
    rw [msgRowsAux, ih, msgColsAux_length]

theorem msgRowsAux_untouched (ch : List Char) (cols : ℕ) (msg : List (List Char))
    (jit : ℕ → ℕ → ℚ) (rem : ℕ) :
    ∀ (j bufIndex : ℕ) (buf : List ℚ) {q : ℕ},
      (q < bufIndex ∨ bufIndex + 32 * cols * rem ≤ q) →
      bufGet (msgRowsAux ch cols msg jit rem j bufIndex buf) q = bufGet buf q := by
  induction rem with
  | zero => intro j bufIndex buf q _; rfl
  | succ rem ih =>
    intro j bufIndex buf q hq
    rw [msgRowsAux, two_mul_verticesPerChar, ih _ _ _ (by cases hq with
        | inl h => exact Or.inl (by omega)
        | inr h => exact Or.inr (by nlinarith)),
      msgColsAux_untouched _ _ _ _ _ _ _ (by cases hq with
        | inl h => exact Or.inl h
        | inr h => exact Or.inr (by nlinarith))]

theorem msgRowsAux_to (ch : List Char) (cols : ℕ) (msg : List (List Char))
    (jit : ℕ → ℕ → ℚ) (rem : ℕ) :
    ∀ (j bufIndex : ℕ) (buf : List ℚ) {k ic s : ℕ},
      k < rem → ic < cols → s < 16 →
      bufIndex + 32 * (k * cols + ic) + 2*s + 1 < buf.length →
      bufGet (msgRowsAux ch cols msg jit rem j bufIndex buf)
          (bufIndex + 32 * (k * cols + ic) + 2*s + 1) =
        (targetChar ch (jsToUpperCase (msg.getD (j + k) [])) ic : ℚ) + jit (j + k) ic := by
  induction rem with
  | zero => intro j bufIndex buf k ic s hk _ _ _; omega
  | succ rem ih =>
    intro j bufIndex buf k ic s hk hic hs hlen
    rw [msgRowsAux, two_mul_verticesPerChar]
    rcases Nat.eq_zero_or_pos k with hk0 | hkpos
    · subst hk0
      have h1 : bufIndex + 32 * (0 * cols + ic) + 2*s + 1 = bufIndex + 32 * ic + 2*s + 1 := by
        ring
      rw [h1, msgRowsAux_untouched _ _ _ _ _ _ _ _ (Or.inl (by nlinarith)),
        msgColsAux_to _ _ _ _ _ _ _ hic hs (by omega)]
      simp
    · obtain ⟨m, rfl⟩ : ∃ m, k = m + 1 := ⟨k - 1, by omega⟩
      have harith : bufIndex + 32 * ((m + 1) * cols + ic) + 2*s + 1 =
          (bufIndex + 32 * cols) + 32 * (m * cols + ic) + 2*s + 1 := by ring
      rw [harith, ih _ _ _ (by omega) hic hs (by rw [msgColsAux_length]; omega)]
      have h2 : j + 1 + m = j + (m + 1) := by omega
      rw [h2]

theorem msgRowsAux_from (ch : List Char) (cols : ℕ) (msg : List (List Char))
    (jit : ℕ → ℕ → ℚ) (rem : ℕ) :
    ∀ (j bufIndex : ℕ) (buf : List ℚ) {k ic s : ℕ},
      k < rem → ic < cols → s < 16 →
      bufIndex + 32 * (k * cols + ic) + 2*s + 1 < buf.length →
      bufGet (msgRowsAux ch cols msg jit rem j bufIndex buf)
          (bufIndex + 32 * (k * cols + ic) + 2*s) =
        wrapFrom (ch.length : ℚ)
          ((targetChar ch (jsToUpperCase (msg.getD (j + k) [])) ic : ℚ) + jit (j + k) ic)
          (bufGet buf (bufIndex + 32 * (k * cols + ic) + 2*s + 1)) := by
  induction rem with
  | zero => intro j bufIndex buf k ic s hk _ _ _; omega
  | succ rem ih =>
    intro j bufIndex buf k ic s hk hic hs hlen
    rw [msgRowsAux, two_mul_verticesPerChar]
    rcases Nat.eq_zero_or_pos k with hk0 | hkpos
    · subst hk0
      have h1 : bufIndex + 32 * (0 * cols + ic) + 2*s + 1 = bufIndex + 32 * ic + 2*s + 1 := by
        ring
      have h0 : bufIndex + 32 * (0 * cols + ic) + 2*s = bufIndex + 32 * ic + 2*s := by
        ring
      rw [h1, h0, msgRowsAux_untouched _ _ _ _ _ _ _ _ (Or.inl (by nlinarith)),
        msgColsAux_from _ _ _ _ _ _ _ hic hs (by omega)]
      simp
    · obtain ⟨m, rfl⟩ : ∃ m, k = m + 1 := ⟨k - 1, by omega⟩
      have harith : bufIndex + 32 * ((m + 1) * cols + ic) + 2*s =
          (bufIndex + 32 * cols) + 32 * (m * cols + ic) + 2*s := by ring
      rw [harith, ih _ _ _ (by omega) hic hs (by rw [msgColsAux_length]; omega)]
      have h2 : j + 1 + m = j + (m + 1) := by omega
      rw [h2, msgColsAux_untouched _ _ _ _ _ _ _ (Or.inr (by nlinarith))]

/-! ### setMessage: per-cell characterization -/

theorem cell_pos_lt (rows cols j i s : ℕ) (hj : j < rows) (hi : i < cols) (hs : s < 16) :
    32 * (j * cols + i) + 2*s + 1 < 2 * verticesPerChar * cols * rows := by
  have h1 : j * cols + i + 1 ≤ rows * cols := by
    calc j * cols + i + 1 ≤ j * cols + cols := by omega
    _ = (j + 1) * cols := by ring
    _ ≤ rows * cols := Nat.mul_le_mul_right cols hj
  calc 32 * (j * cols + i) + 2*s + 1 < 32 * (j * cols + i) + 32 := by omega
  _ = 32 * (j * cols + i + 1) := by ring
  _ ≤ 32 * (rows * cols) := by omega
  _ = 2 * verticesPerChar * cols * rows := by
      simp only [verticesPerChar]; ring

theorem setMessage_to_slot (b : SolariBoard) (msg : List (List Char)) (jit : ℕ → ℕ → ℚ)
    {j i s : ℕ} (hj : j < b.rows) (hi : i < b.cols) (hs : s < 16)
    (hlen : b.charBuffer.length = 2 * verticesPerChar * b.cols * b.rows) :
    bufGet (b.setMessage msg jit).charBuffer (32 * (j * b.cols + i) + 2*s + 1) =
      toValue b.chars msg jit j i := by
  have hpos : 0 + 32 * (j * b.cols + i) + 2*s + 1 < b.charBuffer.length := by
    rw [hlen]
    have := cell_pos_lt b.rows b.cols j i s hj hi hs
    omega
  have h := msgRowsAux_to b.chars b.cols msg jit b.rows 0 0 b.charBuffer hj hi hs hpos
  simpa [SolariBoard.setMessage, toValue] using h

theorem setMessage_from_slot (b : SolariBoard) (msg : List (List Char)) (jit : ℕ → ℕ → ℚ)
    {j i s : ℕ} (hj : j < b.rows) (hi : i < b.cols) (hs : s < 16)
    (hlen : b.charBuffer.length = 2 * verticesPerChar * b.cols * b.rows) :
    bufGet (b.setMessage msg jit).charBuffer (32 * (j * b.cols + i) + 2*s) =
      wrapFrom (b.chars.length : ℚ) (toValue b.chars msg jit j i)
        (bufGet b.charBuffer (32 * (j * b.cols + i) + 2*s + 1)) := by
  have hpos : 0 + 32 * (j * b.cols + i) + 2*s + 1 < b.charBuffer.length := by
    rw [hlen]
    have := cell_pos_lt b.rows b.cols j i s hj hi hs
    omega
  have h := msgRowsAux_from b.chars b.cols msg jit b.rows 0 0 b.charBuffer hj hi hs hpos
  simpa [SolariBoard.setMessage, toValue] using h

theorem setMessage_length (b : SolariBoard) (msg : List (List Char)) (jit : ℕ → ℕ → ℚ) :
    (b.setMessage msg jit).charBuffer.length = b.charBuffer.length := by
  simp [SolariBoard.setMessage, msgRowsAux_length]

end Solari

namespace Solari

/-! ### Geometry builder lemmas -/

theorem setupCharHalf_vertex_length (x y u v : ℚ) (i : ℕ) (a f : Bool) :
    (setupCharHalf x y u v i a f).1.length = 20 := by
  cases f <;> simp [setupCharHalf]

theorem setupCharHalf_index_length (x y u v : ℚ) (i : ℕ) (a f : Bool) :
    (setupCharHalf x y u v i a f).2.length = 6 := by
  cases f <;> simp [setupCharHalf, addFaceIndices]

theorem buildCell_vertex_length (x y : ℚ) (index : ℕ) :
    (buildCell x y index).1.length = 80 := by
  simp [buildCell, setupCharHalf_vertex_length]

theorem buildCell_index_length (x y : ℚ) (index : ℕ) :
    (buildCell x y index).2.length = 24 := by
  simp [buildCell, setupCharHalf_index_length]

theorem buildCols_vertex_length (n : ℕ) :
    ∀ (x y : ℚ) (index : ℕ), (buildCols n x y index).1.length = 80 * n := by
  induction n with
  | zero => intro x y index; rfl
  | succ n ih =>
    intro x y index
    simp only [buildCols, List.length_append, buildCell_vertex_length, ih]
    ring

theorem buildCols_index_length (n : ℕ) :
    ∀ (x y : ℚ) (index : ℕ), (buildCols n x y index).2.length = 24 * n := by
  induction n with
  | zero => intro x y index; rfl
  | succ n ih =>
    intro x y index
    simp only [buildCols, List.length_append, buildCell_index_length, ih]
    ring

theorem buildRows_vertex_length (cols m : ℕ) :
    ∀ (x y : ℚ) (index : ℕ), (buildRows cols m x y index).1.length = 80 * cols * m := by
  induction m with
  | zero => intro x y index; rfl
  | succ m ih =>
    intro x y index
    simp only [buildRows, List.length_append, buildCols_vertex_length, ih]
    ring

theorem buildRows_index_length (cols m : ℕ) :
    ∀ (x y : ℚ) (index : ℕ), (buildRows cols m x y index).2.length = 24 * cols * m := by
  induction m with
  | zero => intro x y index; rfl
  | succ m ih =>
    intro x y index
    simp only [buildRows, List.length_append, buildCols_index_length, ih]
    ring

theorem setupCharHalf_index_mem {k : ℕ} (x y u v : ℚ) (i : ℕ) (a f : Bool)
    (hk : k ∈ (setupCharHalf x y u v i a f).2) : i ≤ k ∧ k < i + 4 := by
  cases f <;> simp [setupCharHalf, addFaceIndices] at hk <;> omega

theorem buildCell_index_mem {k : ℕ} (x y : ℚ) (index : ℕ)
    (hk : k ∈ (buildCell x y index).2) : index ≤ k ∧ k < index + 16 := by
  simp only [buildCell, List.mem_append] at hk
  rcases hk with ((h | h) | h) | h <;>
    have := setupCharHalf_index_mem _ _ _ _ _ _ _ h <;> omega

theorem buildCols_index_mem (n : ℕ) :
    ∀ (x y : ℚ) (index : ℕ) {k : ℕ}, k ∈ (buildCols n x y index).2 →
      index ≤ k ∧ k < index + 16 * n := by
  induction n with
  | zero => intro x y index k hk; simp [buildCols] at hk
  | succ n ih =>
    intro x y index k hk
    simp only [buildCols, List.mem_append] at hk
    rcases hk with h | h
    · have := buildCell_index_mem _ _ _ h
      omega
    · have := ih _ _ _ h
      simp only [verticesPerChar] at this
      omega

theorem buildRows_index_mem (cols m : ℕ) :
    ∀ (x y : ℚ) (index : ℕ) {k : ℕ}, k ∈ (buildRows cols m x y index).2 →
      index ≤ k ∧ k < index + 16 * cols * m := by
  induction m with
  | zero => intro x y index k hk; simp [buildRows] at hk
  | succ m ih =>
    intro x y index k hk
    simp only [buildRows, List.mem_append] at hk
    have hm : 16 * cols * (m + 1) = 16 * cols * m + 16 * cols := by ring
    rcases hk with h | h
    · have := buildCols_index_mem _ _ _ _ h
      omega
    · have := ih _ _ _ h
      simp only [verticesPerChar] at this
      omega

end Solari

namespace Solari

/-! ### Character case lemmas (for the toUpperCase model) -/

theorem char_toNat_ofNat_valid {n : ℕ} (h : n.isValidChar) : (Char.ofNat n).toNat = n := by
  rw [Char.ofNat, dif_pos h]
  rfl

theorem char_toUpper_toLower (c : Char) : (c.toLower).toUpper = c.toUpper := by
  by_cases h : c.toNat ≥ 65 ∧ c.toNat ≤ 90
  · have hv : (c.toNat + 32).isValidChar := Or.inl (by omega)
    have htn : (Char.ofNat (c.toNat + 32)).toNat = c.toNat + 32 := char_toNat_ofNat_valid hv
    have h1 : c.toLower = Char.ofNat (c.toNat + 32) := by
      rw [Char.toLower, if_pos h]
    have h2 : c.toUpper = c := by
      rw [Char.toUpper, if_neg (by omega)]
    rw [h1, h2, Char.toUpper, if_pos (by omega), htn]
    have h3 : c.toNat + 32 - 32 = c.toNat := by omega
    rw [h3, Char.ofNat_toNat]
  · have h1 : c.toLower = c := by rw [Char.toLower, if_neg h]
    rw [h1]

theorem char_toUpper_toUpper (c : Char) : (c.toUpper).toUpper = c.toUpper := by
  by_cases h : c.toNat ≥ 97 ∧ c.toNat ≤ 122
  · have hv : (c.toNat - 32).isValidChar := Or.inl (by omega)
    have htn : (Char.ofNat (c.toNat - 32)).toNat = c.toNat - 32 := char_toNat_ofNat_valid hv
    have h1 : c.toUpper = Char.ofNat (c.toNat - 32) := by
      rw [Char.toUpper, if_pos h]
    rw [h1, Char.toUpper, if_neg (by omega)]
  · have h1 : c.toUpper = c := by rw [Char.toUpper, if_neg h]
    rw [h1, h1]

theorem jsToUpperCase_map_toLower (s : List Char) :
    jsToUpperCase (s.map Char.toLower) = jsToUpperCase (s.map Char.toUpper) := by
  simp only [jsToUpperCase, List.map_map]
  exact List.map_congr_left fun c _ => by
    simp only [Function.comp_apply, char_toUpper_toLower, char_toUpper_toUpper]

/-! ### indexOf lemmas -/

theorem jsIndexOf_eq_neg_one_or_nonneg (l : List Char) (c : Char) :
    jsIndexOf l c = -1 ∨ 0 ≤ jsIndexOf l c := by
  induction l with
  | nil => exact Or.inl rfl
  | cons x xs ih =>
    by_cases hx : x = c
    · right; simp [jsIndexOf, hx]
    · rcases ih with h | h
      · left; simp [jsIndexOf, hx, h]
      · by_cases h1 : jsIndexOf xs c = -1
        · left; simp [jsIndexOf, hx, h1]
        · right; simp [jsIndexOf, hx, h1]; omega

theorem jsIndexOf_eq_neg_one_iff (l : List Char) (c : Char) :
    jsIndexOf l c = -1 ↔ c ∉ l := by
  induction l with
  | nil => simp [jsIndexOf]
  | cons x xs ih =>
    by_cases hx : x = c
    · subst hx
      simp [jsIndexOf]
    · by_cases h1 : jsIndexOf xs c = -1
      · simp [jsIndexOf, hx, h1, List.mem_cons, ih.mp h1, Ne.symm hx]
      · have h2 : 0 ≤ jsIndexOf xs c := (jsIndexOf_eq_neg_one_or_nonneg xs c).resolve_left h1
        have h3 : c ∈ xs := by
          by_contra hc
          exact h1 (ih.mpr hc)
        simp [jsIndexOf, hx, h1, List.mem_cons, h3]
        omega

/-! ### Floor helper -/

theorem floor_intCast_add_fract (z : ℤ) (x : ℚ) (h0 : 0 ≤ x) (h1 : x < 1) :
    ⌊(z : ℚ) + x⌋ = z := by
  rw [add_comm, Int.floor_add_int, Int.floor_eq_zero_iff.mpr (Set.mem_Ico.mpr ⟨h0, h1⟩),
    zero_add]

/-! ### Congruence of setMessage in the message argument -/

theorem msgColsAux_congr (ch row1 row2 : List Char) (jr : ℕ → ℚ) (rem : ℕ) :
    ∀ (i bufIndex : ℕ) (buf : List ℚ),
      (∀ m, i ≤ m → m < i + rem → targetChar ch row1 m = targetChar ch row2 m) →
      msgColsAux ch row1 jr rem i bufIndex buf = msgColsAux ch row2 jr rem i bufIndex buf := by
  induction rem with
  | zero => intro i bufIndex buf _; rfl
  | succ rem ih =>
    intro i bufIndex buf h
    rw [msgColsAux, msgColsAux, h i le_rfl (by omega),
      ih _ _ _ (fun m hm1 hm2 => h m (by omega) (by omega))]

theorem msgRowsAux_congr (ch : List Char) (cols : ℕ) (msg1 msg2 : List (List Char))
    (jit : ℕ → ℕ → ℚ) (rem : ℕ) :
    ∀ (j bufIndex : ℕ) (buf : List ℚ),
      (∀ m, j ≤ m → m < j + rem → ∀ ic, ic < cols →
        targetChar ch (jsToUpperCase (msg1.getD m [])) ic =
          targetChar ch (jsToUpperCase (msg2.getD m [])) ic) →
      msgRowsAux ch cols msg1 jit rem j bufIndex buf =
        msgRowsAux ch cols msg2 jit rem j bufIndex buf := by
  induction rem with
  | zero => intro j bufIndex buf _; rfl
  | succ rem ih =>
    intro j bufIndex buf h
    rw [msgRowsAux, msgRowsAux,
      msgColsAux_congr ch _ _ _ cols 0 bufIndex buf
        (fun m _ hm2 => h j le_rfl (by omega) m (by omega)),
      ih _ _ _ (fun m hm1 hm2 ic hic => h m (by omega) (by omega) ic hic)]

/-! ### Truncation helpers -/

theorem getD_take_map (msg : List (List Char)) (rows cols : ℕ) {j : ℕ} (hj : j < rows) :
    ((msg.take rows).map (fun l => l.take cols)).getD j [] = (msg.getD j []).take cols := by
  rcases Nat.lt_or_ge j msg.length with h | h
  · rw [List.getD_eq_getElem?_getD, List.getD_eq_getElem?_getD, List.getElem?_map,
      List.getElem?_take_of_lt hj]
    rcases List.getElem?_eq_some_iff.mpr ⟨h, rfl⟩ with hsome
    rw [hsome]
    rfl
  · have h1 : ((msg.take rows).map (fun l => l.take cols)).length ≤ j := by
      simp only [List.length_map, List.length_take]
      omega
    rw [List.getD_eq_getElem?_getD, List.getD_eq_getElem?_getD,
      List.getElem?_eq_none h1, List.getElem?_eq_none h]
    simp

theorem targetChar_take (ch row : List Char) (cols : ℕ) {i : ℕ} (hi : i < cols) :
    targetChar ch (row.take cols) i = targetChar ch row i := by
  simp only [targetChar, List.length_take]
  rcases Nat.lt_or_ge i row.length with h | h
  · rw [if_pos (by omega), if_pos h]
    have hgd : (row.take cols).getD i default = row.getD i default := by
      rw [List.getD_eq_getElem?_getD, List.getD_eq_getElem?_getD,
        List.getElem?_take_of_lt hi]
    rw [hgd]
  · rw [if_neg (by omega), if_neg (by omega)]

end Solari

namespace Solari

theorem runUpdates_cons (b : SolariBoard) (t : ℚ) (ts : List ℚ) :
    runUpdates b (t :: ts) = runUpdates (b.update t).1 ts := rfl

theorem update_fields (b : SolariBoard) (t : ℚ) :
    (b.update t).1.chars = b.chars ∧ (b.update t).1.speed = b.speed ∧
    (b.update t).1.timing =
      (if b.timing < (b.chars.length : ℚ) then b.timing + t * b.speed else b.timing) := by
  simp only [SolariBoard.update]
  split_ifs <;> simp_all

/-! ### Claims -/

/-- C5: for every grid of rows x cols cells, the geometry builder produces
exactly 16 * rows * cols vertices (5 floats each in the interleaved
buffer) and exactly 24 * rows * cols index entries (6 indices for each of
the 4 quads per cell). -/
theorem geometry_vertex_and_index_counts (rows cols : ℕ) :
    (buildBuffers rows cols).1.length = 5 * (16 * rows * cols) ∧
    (buildBuffers rows cols).2.length = 24 * rows * cols := by
  constructor
  · simp only [buildBuffers, buildRows_vertex_length]
    ring
  · simp only [buildBuffers, buildRows_index_length]
    ring

/-- C10: every entry of the index list produced at construction is a
natural number strictly below 16 * rows * cols, so every index refers to
an existing vertex. -/
theorem index_entries_reference_existing_vertices (rows cols k : ℕ)
    (hk : k ∈ (buildBuffers rows cols).2) : k < 16 * rows * cols := by
  simp only [buildBuffers] at hk
  have h := buildRows_index_mem cols rows _ _ 0 hk
  have he : 16 * cols * rows = 16 * rows * cols := by ring
  omega

/-- Witness for C10 at the concrete 1 x 1 grid and the entry 2 of its
index buffer. -/
theorem index_entries_reference_existing_vertices_witness :
    2 ∈ (buildBuffers 1 1).2 ∧ 2 < 16 * 1 * 1 :=
  ⟨by decide, index_entries_reference_existing_vertices 1 1 2 (by decide)⟩

/-- C6: calling update twice with no intervening setMessage uploads on at
most the first call: the first call uploads exactly when the dirty flag
was set and clears the flag, and the second call issues no device buffer
call. -/
theorem update_uploads_at_most_once (b : SolariBoard) (t1 t2 : ℚ) :
    (b.update t1).2 = b.charBufferDirty ∧
    (b.update t1).1.charBufferDirty = false ∧
    ((b.update t1).1.update t2).2 = false := by
  simp only [SolariBoard.update]
  split_ifs <;> simp_all

/-- C1 counterexample: a board with glyph set of length 2 and speed 1,
updated once with the non-negative elapsed time 10 directly after
construction, reaches timing 10, strictly above the glyph-set length, so
the timing is not capped at chars.length. -/
theorem timing_exceeds_glyph_count_after_one_update :
    (0:ℚ) ≤ 10 ∧
    (((mkBoard ['A', ' '] 1 1 (some 1)).update 10).1).timing = 10 ∧
    ((mkBoard ['A', ' '] 1 1 (some 1)).chars.length : ℚ) < 10 := by
  refine ⟨by norm_num, ?_, by norm_num [mkBoard]⟩
  norm_num [SolariBoard.update, mkBoard]

/-- C1 amended: with non-negative speed and non-negative elapsed times,
the timing value is monotonically non-decreasing along any sequence of
update calls, and once it has reached at least chars.length it never
changes again.  It is not capped at chars.length: the call that crosses
the threshold may overshoot it by its full increment. -/
theorem timing_monotone_and_stationary_above_glyph_count (b : SolariBoard) (ts : List ℚ)
    (hsp : 0 ≤ b.speed) (hts : ∀ t ∈ ts, 0 ≤ t) :
    b.timing ≤ (runUpdates b ts).timing ∧
    ((b.chars.length : ℚ) ≤ b.timing → (runUpdates b ts).timing = b.timing) := by
  induction ts generalizing b with
  | nil => exact ⟨le_rfl, fun _ => rfl⟩
  | cons t ts ih =>
    have ht : 0 ≤ t := hts t (by simp)
    have hts' : ∀ u ∈ ts, 0 ≤ u := fun u h => hts u (by simp [h])
    obtain ⟨hchars, hspeed, htim⟩ := update_fields b t
    have hstep : b.timing ≤ (b.update t).1.timing := by
      rw [htim]
      split_ifs with h
      · exact le_add_of_nonneg_right (mul_nonneg ht hsp)
      · exact le_rfl
    have h1 := ih (b.update t).1 (hspeed ▸ hsp) hts'
    rw [runUpdates_cons]
    constructor
    · exact le_trans hstep h1.1
    · intro hge
      have hnotlt : ¬ b.timing < (b.chars.length : ℚ) := not_lt.mpr hge
      have htim' : (b.update t).1.timing = b.timing := by rw [htim, if_neg hnotlt]
      rw [h1.2 (by rw [hchars, htim']; exact hge), htim']

/-- Witness for C1 amended: the concrete board with the default speed and
the update sequence of elapsed times 1 and 2. -/
theorem timing_monotone_and_stationary_witness :
    (mkBoard [' '] 1 1 none).timing ≤ (runUpdates (mkBoard [' '] 1 1 none) [1, 2]).timing :=
  (timing_monotone_and_stationary_above_glyph_count (mkBoard [' '] 1 1 none) [1, 2]
    (by norm_num [mkBoard]) (by intro t ht; fin_cases ht <;> norm_num)).1

end Solari

namespace Solari

/-- C3: when setMessage writes a new target value into a cell, the new
from value written for each vertex slot equals the previously stored to
value of that slot, unless floor(new_to) < floor(previous_to), in which
case it equals previous_to - chars.length; the new to value is the
written target. -/
theorem setMessage_new_from_rule (b : SolariBoard) (msg : List (List Char))
    (jit : ℕ → ℕ → ℚ) (j i s : ℕ) (hj : j < b.rows) (hi : i < b.cols) (hs : s < 16)
    (hlen : b.charBuffer.length = 2 * verticesPerChar * b.cols * b.rows) :
    bufGet (b.setMessage msg jit).charBuffer (32 * (j * b.cols + i) + 2*s + 1) =
      toValue b.chars msg jit j i ∧
    bufGet (b.setMessage msg jit).charBuffer (32 * (j * b.cols + i) + 2*s) =
      (if ⌊toValue b.chars msg jit j i⌋ <
          ⌊bufGet b.charBuffer (32 * (j * b.cols + i) + 2*s + 1)⌋
       then bufGet b.charBuffer (32 * (j * b.cols + i) + 2*s + 1) - (b.chars.length : ℚ)
       else bufGet b.charBuffer (32 * (j * b.cols + i) + 2*s + 1)) := by
  refine ⟨setMessage_to_slot b msg jit hj hi hs hlen, ?_⟩
  rw [setMessage_from_slot b msg jit hj hi hs hlen, wrapFrom]

/-- A concrete 1 x 1 board over the glyph set A, B, blank, used as a
witness fixture. -/
def wBoard : SolariBoard := mkBoard ['A', 'B', ' '] 1 1 none

/-- wBoard after a first setMessage writing B with jitter 1/20: the cell
stores to = 21/20. -/
def wBoardB : SolariBoard := wBoard.setMessage [['B']] (fun _ _ => 1/20)

/-- Witness for C3 on the concrete board wBoard at cell (0, 0), slot 0. -/
theorem setMessage_new_from_rule_witness :
    bufGet (wBoard.setMessage [['A']] (fun _ _ => 1/20)).charBuffer
        (32 * (0 * wBoard.cols + 0) + 2*0 + 1) =
      toValue wBoard.chars [['A']] (fun _ _ => 1/20) 0 0 ∧
    bufGet (wBoard.setMessage [['A']] (fun _ _ => 1/20)).charBuffer
        (32 * (0 * wBoard.cols + 0) + 2*0) =
      (if ⌊toValue wBoard.chars [['A']] (fun _ _ => 1/20) 0 0⌋ <
          ⌊bufGet wBoard.charBuffer (32 * (0 * wBoard.cols + 0) + 2*0 + 1)⌋
       then bufGet wBoard.charBuffer (32 * (0 * wBoard.cols + 0) + 2*0 + 1) -
         (wBoard.chars.length : ℚ)
       else bufGet wBoard.charBuffer (32 * (0 * wBoard.cols + 0) + 2*0 + 1)) :=
  setMessage_new_from_rule wBoard [['A']] (fun _ _ => 1/20) 0 0 0
    (by norm_num [wBoard, mkBoard]) (by norm_num [wBoard, mkBoard]) (by norm_num)
    (by norm_num [wBoard, mkBoard, verticesPerChar])

/-- C4 counterexample: on wBoard, setMessage B with jitter 1/20 stores
to = 21/20 (floored glyph g_prev = 1); a second setMessage A with jitter 0
has floored target 0 < 1, and the new from it writes is
21/20 - 3 = -39/20, which differs from the claimed exact value
g_prev - glyphCount = 1 - 3 = -2: the stored jitter fraction survives in
the new from. -/
theorem wrap_from_keeps_fraction_counterexample :
    ⌊bufGet wBoardB.charBuffer 1⌋ = 1 ∧
    ⌊toValue wBoardB.chars [['A']] (fun _ _ => 0) 0 0⌋ = 0 ∧
    bufGet (wBoardB.setMessage [['A']] (fun _ _ => 0)).charBuffer 0 = -39/20 ∧
    (-39/20 : ℚ) ≠ (((1 : ℤ) - (wBoardB.chars.length : ℤ) : ℤ) : ℚ) := by
  have hA : targetChar ['A', 'B', ' '] (jsToUpperCase ['A']) 0 = 0 := by decide
  have hB : targetChar ['A', 'B', ' '] (jsToUpperCase ['B']) 0 = 1 := by decide
  have hch : wBoardB.chars = ['A', 'B', ' '] := by
    simp [wBoardB, wBoard, SolariBoard.setMessage, mkBoard]
  refine ⟨?_, ?_, ?_, ?_⟩
  · norm_num [wBoardB, wBoard, SolariBoard.setMessage, msgRowsAux, msgColsAux,
      fillCharBuffer, fillN, fillStep, bufGet, wrapFrom, mkBoard, verticesPerChar,
      List.replicate, hA, hB, Int.floor_eq_iff]
  · rw [hch]
    norm_num [toValue, hA]
  · norm_num [wBoardB, wBoard, SolariBoard.setMessage, msgRowsAux, msgColsAux,
      fillCharBuffer, fillN, fillStep, bufGet, wrapFrom, toValue, mkBoard,
      verticesPerChar, List.replicate, hA, hB, Int.floor_eq_iff]
  · rw [hch]
    norm_num

/-- C4 amended: when a cell whose stored to value has floor g_prev
receives a new target with floor g_new < g_prev, the new from equals the
previous stored to value (jitter included) minus chars.length; hence its
floor is exactly g_prev - glyphCount, while the value itself keeps the
previous jitter fraction. -/
theorem wrap_from_subtracts_glyph_count (b : SolariBoard) (msg : List (List Char))
    (jit : ℕ → ℕ → ℚ) (j i s : ℕ) (hj : j < b.rows) (hi : i < b.cols) (hs : s < 16)
    (hlen : b.charBuffer.length = 2 * verticesPerChar * b.cols * b.rows)
    (hwrap : ⌊toValue b.chars msg jit j i⌋ <
      ⌊bufGet b.charBuffer (32 * (j * b.cols + i) + 2*s + 1)⌋) :
    bufGet (b.setMessage msg jit).charBuffer (32 * (j * b.cols + i) + 2*s) =
      bufGet b.charBuffer (32 * (j * b.cols + i) + 2*s + 1) - (b.chars.length : ℚ) ∧
    ⌊bufGet (b.setMessage msg jit).charBuffer (32 * (j * b.cols + i) + 2*s)⌋ =
      ⌊bufGet b.charBuffer (32 * (j * b.cols + i) + 2*s + 1)⌋ - (b.chars.length : ℤ) := by
  have h := setMessage_from_slot b msg jit hj hi hs hlen
  rw [wrapFrom, if_pos hwrap] at h
  refine ⟨h, ?_⟩
  rw [h]
  exact_mod_cast Int.floor_sub_nat
    (bufGet b.charBuffer (32 * (j * b.cols + i) + 2*s + 1)) b.chars.length

end Solari

namespace Solari

/-- Witness for C4 amended on wBoardB (stored to = 21/20, g_prev = 1):
the new from written by setMessage A is 21/20 - 3 and its floor is
1 - 3 = -2. -/
theorem wrap_from_subtracts_glyph_count_witness :
    bufGet (wBoardB.setMessage [['A']] (fun _ _ => 0)).charBuffer
        (32 * (0 * wBoardB.cols + 0) + 2*0) =
      bufGet wBoardB.charBuffer (32 * (0 * wBoardB.cols + 0) + 2*0 + 1) -
        (wBoardB.chars.length : ℚ) ∧
    ⌊bufGet (wBoardB.setMessage [['A']] (fun _ _ => 0)).charBuffer
        (32 * (0 * wBoardB.cols + 0) + 2*0)⌋ =
      ⌊bufGet wBoardB.charBuffer (32 * (0 * wBoardB.cols + 0) + 2*0 + 1)⌋ -
        (wBoardB.chars.length : ℤ) :=
  wrap_from_subtracts_glyph_count wBoardB [['A']] (fun _ _ => 0) 0 0 0
    (by norm_num [wBoardB, wBoard, SolariBoard.setMessage, mkBoard])
    (by norm_num [wBoardB, wBoard, SolariBoard.setMessage, mkBoard])
    (by norm_num)
    (by simp [wBoardB, wBoard, SolariBoard.setMessage, msgRowsAux_length, mkBoard,
      verticesPerChar])
    (by
      have hA : targetChar ['A', 'B', ' '] (jsToUpperCase ['A']) 0 = 0 := by decide
      have hB : targetChar ['A', 'B', ' '] (jsToUpperCase ['B']) 0 = 1 := by decide
      norm_num [wBoardB, wBoard, SolariBoard.setMessage, msgRowsAux, msgColsAux,
        fillCharBuffer, fillN, fillStep, bufGet, wrapFrom, toValue, mkBoard,
        verticesPerChar, List.replicate, hA, hB, Int.floor_eq_iff])

end Solari

namespace Solari

/-- The C2 property: within each cell, all 16 vertex slots hold the same
(from, to) pair (equal to the pair in the cell's first slot). -/
def cellUniform (b : SolariBoard) : Prop :=
  ∀ j, j < b.rows → ∀ i, i < b.cols → ∀ s, s < 16 →
    bufGet b.charBuffer (32 * (j * b.cols + i) + 2*s) =
      bufGet b.charBuffer (32 * (j * b.cols + i)) ∧
    bufGet b.charBuffer (32 * (j * b.cols + i) + 2*s + 1) =
      bufGet b.charBuffer (32 * (j * b.cols + i) + 1)

/-- The maintained board invariant: exact buffer length plus cell
uniformity. -/
def boardInv (b : SolariBoard) : Prop :=
  b.charBuffer.length = 2 * verticesPerChar * b.cols * b.rows ∧ cellUniform b

theorem mkBoard_boardInv (chars : List Char) (rows cols : ℕ) (speedOpt : Option ℚ) :
    boardInv (mkBoard chars rows cols speedOpt) := by
  constructor
  · simp [mkBoard]
  · intro j hj i hi s hs
    simp only [mkBoard] at hj hi ⊢
    have hb := cell_pos_lt rows cols j i s hj hi hs
    have hb0 := cell_pos_lt rows cols j i 0 hj hi (by norm_num)
    have hlen : 2 * verticesPerChar * cols * rows = 2 * verticesPerChar * rows * cols := by
      ring
    constructor
    · rw [bufGet_replicate (by simp only [verticesPerChar] at *; omega),
        bufGet_replicate (by simp only [verticesPerChar] at *; omega)]
    · rw [bufGet_replicate (by simp only [verticesPerChar] at *; omega),
        bufGet_replicate (by simp only [verticesPerChar] at *; omega)]

theorem setMessage_fields (b : SolariBoard) (msg : List (List Char)) (jit : ℕ → ℕ → ℚ) :
    (b.setMessage msg jit).rows = b.rows ∧ (b.setMessage msg jit).cols = b.cols ∧
    (b.setMessage msg jit).chars = b.chars := by
  simp [SolariBoard.setMessage]

theorem setMessage_boardInv (b : SolariBoard) (msg : List (List Char)) (jit : ℕ → ℕ → ℚ)
    (h : boardInv b) : boardInv (b.setMessage msg jit) := by
  obtain ⟨hlen, huni⟩ := h
  obtain ⟨hr, hc, hch⟩ := setMessage_fields b msg jit
  constructor
  · rw [setMessage_length, hr, hc]
    exact hlen
  · intro j hj i hi s hs
    rw [hr] at hj
    rw [hc] at hi ⊢
    have hF := setMessage_from_slot b msg jit hj hi hs hlen
    have hF0 := setMessage_from_slot b msg jit hj hi (show 0 < 16 by norm_num) hlen
    have hT := setMessage_to_slot b msg jit hj hi hs hlen
    have hT0 := setMessage_to_slot b msg jit hj hi (show 0 < 16 by norm_num) hlen
    simp only [Nat.mul_zero, Nat.add_zero] at hF0 hT0
    constructor
    · rw [hF, hF0, (huni j hj i hi s hs).2]
    · rw [hT, hT0]

theorem runMessages_boardInv (calls : List (List (List Char) × (ℕ → ℕ → ℚ))) :
    ∀ (b : SolariBoard), boardInv b → boardInv (runMessages b calls) := by
  induction calls with
  | nil => intro b h; exact h
  | cons c cs ih =>
    intro b h
    exact ih _ (setMessage_boardInv b c.1 c.2 h)

/-- C2: after construction and any sequence of setMessage calls, all 16
per-vertex (from, to) pairs stored in the character buffer for any one
cell are identical (each slot agrees with the cell's first slot). -/
theorem cell_vertex_pairs_uniform (chars : List Char) (rows cols : ℕ)
    (speedOpt : Option ℚ) (calls : List (List (List Char) × (ℕ → ℕ → ℚ))) :
    cellUniform (runMessages (mkBoard chars rows cols speedOpt) calls) :=
  (runMessages_boardInv calls _ (mkBoard_boardInv chars rows cols speedOpt)).2

/-- Witness for C2: a concrete 1 x 1 board after one setMessage call,
slot 5 agrees with slot 0 in both components. -/
theorem cell_vertex_pairs_uniform_witness :
    (bufGet (runMessages (mkBoard ['A', 'B', ' '] 1 1 none)
        [([['B']], fun _ _ => 1/20)]).charBuffer
      (32 * (0 * (runMessages (mkBoard ['A', 'B', ' '] 1 1 none)
        [([['B']], fun _ _ => 1/20)]).cols + 0) + 2*5) =
    bufGet (runMessages (mkBoard ['A', 'B', ' '] 1 1 none)
        [([['B']], fun _ _ => 1/20)]).charBuffer
      (32 * (0 * (runMessages (mkBoard ['A', 'B', ' '] 1 1 none)
        [([['B']], fun _ _ => 1/20)]).cols + 0))) ∧
    (bufGet (runMessages (mkBoard ['A', 'B', ' '] 1 1 none)
        [([['B']], fun _ _ => 1/20)]).charBuffer
      (32 * (0 * (runMessages (mkBoard ['A', 'B', ' '] 1 1 none)
        [([['B']], fun _ _ => 1/20)]).cols + 0) + 2*5 + 1) =
    bufGet (runMessages (mkBoard ['A', 'B', ' '] 1 1 none)
        [([['B']], fun _ _ => 1/20)]).charBuffer
      (32 * (0 * (runMessages (mkBoard ['A', 'B', ' '] 1 1 none)
        [([['B']], fun _ _ => 1/20)]).cols + 0) + 1)) :=
  cell_vertex_pairs_uniform ['A', 'B', ' '] 1 1 none [([['B']], fun _ _ => 1/20)]
    0 (by simp [runMessages, SolariBoard.setMessage, mkBoard])
    0 (by simp [runMessages, SolariBoard.setMessage, mkBoard])
    5 (by norm_num)

end Solari

namespace Solari

theorem getD_singleton (l : List Char) (j : ℕ) :
    [l].getD j [] = if j = 0 then l else [] := by
  cases j with
  | zero => simp
  | succ m => simp

/-- C7: for every line, setMessage with the lower-cased form of the line
produces the same floored glyph target in every cell slot as setMessage
with the upper-cased form, for any jitters in [0, 1). -/
theorem setMessage_case_insensitive (b : SolariBoard) (line : List Char)
    (jit1 jit2 : ℕ → ℕ → ℚ) (j i s : ℕ) (hj : j < b.rows) (hi : i < b.cols) (hs : s < 16)
    (hlen : b.charBuffer.length = 2 * verticesPerChar * b.cols * b.rows)
    (hjit1 : 0 ≤ jit1 j i ∧ jit1 j i < 1) (hjit2 : 0 ≤ jit2 j i ∧ jit2 j i < 1) :
    ⌊bufGet (b.setMessage [line.map Char.toLower] jit1).charBuffer
        (32 * (j * b.cols + i) + 2*s + 1)⌋ =
    ⌊bufGet (b.setMessage [line.map Char.toUpper] jit2).charBuffer
        (32 * (j * b.cols + i) + 2*s + 1)⌋ := by
  rw [setMessage_to_slot b _ jit1 hj hi hs hlen, setMessage_to_slot b _ jit2 hj hi hs hlen]
  unfold toValue
  rw [floor_intCast_add_fract _ _ hjit1.1 hjit1.2, floor_intCast_add_fract _ _ hjit2.1 hjit2.2,
    getD_singleton, getD_singleton]
  rcases Nat.eq_zero_or_pos j with h0 | hpos
  · subst h0
    rw [if_pos rfl, if_pos rfl, jsToUpperCase_map_toLower]
  · rw [if_neg (by omega), if_neg (by omega)]

/-- Witness for C7 at the concrete board wBoard with the line b (lower
form b, upper form B) and jitters 1/20 and 1/30. -/
theorem setMessage_case_insensitive_witness :
    ⌊bufGet (wBoard.setMessage [['b'].map Char.toLower] (fun _ _ => 1/20)).charBuffer
        (32 * (0 * wBoard.cols + 0) + 2*0 + 1)⌋ =
    ⌊bufGet (wBoard.setMessage [['b'].map Char.toUpper] (fun _ _ => 1/30)).charBuffer
        (32 * (0 * wBoard.cols + 0) + 2*0 + 1)⌋ :=
  setMessage_case_insensitive wBoard ['b'] (fun _ _ => 1/20) (fun _ _ => 1/30) 0 0 0
    (by norm_num [wBoard, mkBoard]) (by norm_num [wBoard, mkBoard]) (by norm_num)
    (by norm_num [wBoard, mkBoard, verticesPerChar])
    (by norm_num) (by norm_num)

/-- C8: a character whose upper-cased form is absent from the glyph set
yields the blank glyph index chars.length - 1 as the cell's floored
target; the lookup is total (a missing glyph falls back to blank rather
than failing). -/
theorem missing_glyph_renders_blank (b : SolariBoard) (msg : List (List Char))
    (jit : ℕ → ℕ → ℚ) (j i s : ℕ) (hj : j < b.rows) (hi : i < b.cols) (hs : s < 16)
    (hlen : b.charBuffer.length = 2 * verticesPerChar * b.cols * b.rows)
    (hjit : 0 ≤ jit j i ∧ jit j i < 1)
    (hchar : i < (msg.getD j []).length)
    (hmiss : Char.toUpper ((msg.getD j []).getD i default) ∉ b.chars) :
    ⌊bufGet (b.setMessage msg jit).charBuffer (32 * (j * b.cols + i) + 2*s + 1)⌋ =
      (b.chars.length : ℤ) - 1 := by
  rw [setMessage_to_slot b msg jit hj hi hs hlen]
  unfold toValue
  have hgd : (jsToUpperCase (msg.getD j [])).getD i default =
      Char.toUpper ((msg.getD j []).getD i default) := by
    have hmap : ∀ (l : List Char), i < l.length →
        (l.map Char.toUpper).getD i default = Char.toUpper (l.getD i default) := by
      intro l h
      rw [List.getD_eq_getElem?_getD, List.getD_eq_getElem?_getD, List.getElem?_map,
        List.getElem?_eq_getElem h]
      rfl
    exact hmap (msg.getD j []) hchar
  have htc : targetChar b.chars (jsToUpperCase (msg.getD j [])) i =
      (b.chars.length : ℤ) - 1 := by
    unfold targetChar
    rw [if_pos (by simpa [jsToUpperCase] using hchar), hgd,
      (jsIndexOf_eq_neg_one_iff _ _).mpr hmiss, if_pos rfl]
  rw [htc]
  exact floor_intCast_add_fract _ _ hjit.1 hjit.2

/-- Witness for C8: the hash character is absent from wBoard's glyph set
A, B, blank, so the cell's floored target is the blank index 2. -/
theorem missing_glyph_renders_blank_witness :
    ⌊bufGet (wBoard.setMessage [['#']] (fun _ _ => 1/20)).charBuffer
        (32 * (0 * wBoard.cols + 0) + 2*0 + 1)⌋ = (wBoard.chars.length : ℤ) - 1 :=
  missing_glyph_renders_blank wBoard [['#']] (fun _ _ => 1/20) 0 0 0
    (by norm_num [wBoard, mkBoard]) (by norm_num [wBoard, mkBoard]) (by norm_num)
    (by norm_num [wBoard, mkBoard, verticesPerChar])
    (by norm_num) (by norm_num) (by decide)

end Solari

namespace Solari

/-- C9: setMessage consumes only the first rows lines and the first cols
characters of each line: the buffer it produces equals the one produced
from the explicitly truncated message (same jitters), and every cell
beyond the message's line count or beyond its own line's length receives
the blank target chars.length - 1; no input shape is an error. -/
theorem setMessage_truncates_and_pads (b : SolariBoard) (msg : List (List Char))
    (jit : ℕ → ℕ → ℚ) :
    (b.setMessage msg jit).charBuffer =
      (b.setMessage ((msg.take b.rows).map (fun l => l.take b.cols)) jit).charBuffer ∧
    (∀ j i s, j < b.rows → i < b.cols → s < 16 →
      b.charBuffer.length = 2 * verticesPerChar * b.cols * b.rows →
      0 ≤ jit j i → jit j i < 1 →
      (msg.length ≤ j ∨ (msg.getD j []).length ≤ i) →
      ⌊bufGet (b.setMessage msg jit).charBuffer (32 * (j * b.cols + i) + 2*s + 1)⌋ =
        (b.chars.length : ℤ) - 1) := by
  constructor
  · simp only [SolariBoard.setMessage]
    apply msgRowsAux_congr
    intro m hm0 hm ic hic
    have hmrows : m < b.rows := by omega
    rw [getD_take_map msg b.rows b.cols hmrows]
    rw [show jsToUpperCase ((msg.getD m []).take b.cols) =
        (jsToUpperCase (msg.getD m [])).take b.cols from by
      simp [jsToUpperCase, List.map_take]]
    rw [targetChar_take _ _ _ hic]
  · intro j i s hj hi hs hlen hjit0 hjit1 hcond
    rw [setMessage_to_slot b msg jit hj hi hs hlen]
    unfold toValue
    have htc : targetChar b.chars (jsToUpperCase (msg.getD j [])) i =
        (b.chars.length : ℤ) - 1 := by
      rcases hcond with h | h
      · have hrow : msg.getD j [] = [] := by
          rw [List.getD_eq_getElem?_getD, List.getElem?_eq_none h]
          rfl
        rw [hrow]
        simp [targetChar, jsToUpperCase]
      · unfold targetChar
        rw [if_neg (by simp only [jsToUpperCase, List.length_map]; omega)]
    rw [htc]
    exact floor_intCast_add_fract _ _ hjit0 hjit1

/-- Witness for C9 at wBoard with the two-line message (empty line, C):
the buffer matches the truncated one-line message, and cell (0, 0) -
beyond the empty first line's length - gets the blank target 2. -/
theorem setMessage_truncates_and_pads_witness :
    ((wBoard.setMessage [[], ['C']] (fun _ _ => 1/20)).charBuffer =
      (wBoard.setMessage (([[], ['C']].take wBoard.rows).map (fun l => l.take wBoard.cols))
        (fun _ _ => 1/20)).charBuffer) ∧
    ⌊bufGet (wBoard.setMessage [[], ['C']] (fun _ _ => 1/20)).charBuffer
        (32 * (0 * wBoard.cols + 0) + 2*0 + 1)⌋ = (wBoard.chars.length : ℤ) - 1 :=
  ⟨(setMessage_truncates_and_pads wBoard [[], ['C']] (fun _ _ => 1/20)).1,
   (setMessage_truncates_and_pads wBoard [[], ['C']] (fun _ _ => 1/20)).2 0 0 0
     (by norm_num [wBoard, mkBoard]) (by norm_num [wBoard, mkBoard]) (by norm_num)
     (by norm_num [wBoard, mkBoard, verticesPerChar])
     (by norm_num) (by norm_num) (Or.inr (by simp))⟩

end Solari
